import Mathlib

/-!
Verification of the key-rotation ledger and of two frontend handlers of the
Ai-mat chat application. The ledger operations are modelled from the design
specification, because the backend source file that implements them is not
among the supplied sources (only its test ledger and its frontend callers
are). The frontend handlers are translated from `frontend/src/App.js`.
-/

/-- Modelled from the spec: one configured API credential slot of the backend
key-rotation ledger (the backend implementation file is missing from the
supplied sources). Timestamps are naturals; `lastUsedAt` starts at the
epoch `0`; `disabledUntil`, when present and in the future, excludes the slot
from selection. -/
structure CredentialSlot where
  id : String
  usageCount : Nat
  lastUsedAt : Nat
  disabledUntil : Option Nat
deriving Repr, DecidableEq

/-- Modelled from the spec: the ledger owns the fixed, ordered pool of
credential slots (pool order is the configuration order). -/
structure Ledger where
  slots : List CredentialSlot
deriving Repr, DecidableEq

/-- Modelled from the spec: the error the ledger reports when every slot is
disabled. -/
inductive RotationError where
  | noAvailableCredential
deriving Repr, DecidableEq

/-- Modelled from the spec: a slot is eligible at time `now` when its
`disabledUntil` is absent or in the past (lazy expiry, checked at selection
time, no background timer). -/
def eligible (now : Nat) (s : CredentialSlot) : Bool :=
  match s.disabledUntil with
  | none => true
  | some d => decide (d < now)

/-- Modelled from the spec: slot `a` is strictly preferred to slot `b` by the
selection rule, that is, `a` has a smaller `usageCount`, or the counts tie and
`a` has an earlier `lastUsedAt`. Boolean form used by the scan. -/
def betterSlot (a b : CredentialSlot) : Bool :=
  decide (a.usageCount < b.usageCount) ||
    (decide (a.usageCount = b.usageCount) && decide (a.lastUsedAt < b.lastUsedAt))

/-- Strict preference as a proposition: smaller `usageCount`, ties broken by
earlier `lastUsedAt`. -/
def Better (a b : CredentialSlot) : Prop :=
  a.usageCount < b.usageCount ∨
    (a.usageCount = b.usageCount ∧ a.lastUsedAt < b.lastUsedAt)

/-- Modelled from the spec: scan the pool-ordered list of slots and keep the
best one, preferring the earlier slot on a full tie, which realises the
stable pool-order tie-break. -/
def selectFrom : List CredentialSlot → Option CredentialSlot
  | [] => none
  | s :: rest =>
    match selectFrom rest with
    | none => some s
    | some t => if betterSlot t s then some t else some s

/-- Modelled from the spec: `selectCredential` returns, among the slots whose
`disabledUntil` is absent or in the past, the slot with the smallest
`usageCount`, ties broken by earliest `lastUsedAt`, further ties by pool
order; if every slot is disabled it fails with `NoAvailableCredential`.
Selection alone has no side effect, so the ledger component of the result is
the input ledger. -/
def selectCredential (L : Ledger) (now : Nat) :
    Except RotationError CredentialSlot × Ledger :=
  match selectFrom (L.slots.filter (eligible now)) with
  | some s => (Except.ok s, L)
  | none => (Except.error RotationError.noAvailableCredential, L)

/-- Modelled from the spec: `recordDispatch` increments `usageCount` for the
named slot and sets its `lastUsedAt` to the current time; it fails silently
(no state change) when the id is not in the pool. -/
def recordDispatch (L : Ledger) (slotId : String) (now : Nat) : Ledger :=
  ⟨L.slots.map (fun s =>
    if s.id == slotId then
      { s with usageCount := s.usageCount + 1, lastUsedAt := now }
    else s)⟩

/-- Modelled from the spec: `recordProviderQuotaError` sets
`disabledUntil = now + cooldown` for the named slot. -/
def recordProviderQuotaError (L : Ledger) (slotId : String)
    (cooldown now : Nat) : Ledger :=
  ⟨L.slots.map (fun s =>
    if s.id == slotId then { s with disabledUntil := some (now + cooldown) }
    else s)⟩

/-- Modelled from the spec: one per-slot entry of the status aggregate. -/
structure SlotUsage where
  id : String
  usageCount : Nat
deriving Repr, DecidableEq

/-- Modelled from the spec: the read-only status aggregate. -/
structure UsageSnapshot where
  totalDispatches : Nat
  perSlotUsage : List SlotUsage
deriving Repr, DecidableEq

/-- Modelled from the spec: `snapshot` sums `usageCount` across all slots for
`totalDispatches` and returns the raw per-slot counts; it must not mutate
state, so the ledger component of the result is the input ledger. -/
def snapshot (L : Ledger) : UsageSnapshot × Ledger :=
  (⟨(L.slots.map CredentialSlot.usageCount).sum,
    L.slots.map (fun s => ⟨s.id, s.usageCount⟩)⟩, L)

theorem betterSlot_iff (a b : CredentialSlot) :
    betterSlot a b = true ↔ Better a b := by
  simp [betterSlot, Better]

theorem better_irrefl (a : CredentialSlot) : ¬ Better a a := by
  intro h
  rcases h with h | ⟨_, h⟩ <;> omega

theorem better_asymm {a b : CredentialSlot} (h : Better a b) : ¬ Better b a := by
  intro h'
  rcases h with h | ⟨h1, h2⟩ <;> rcases h' with h' | ⟨h1', h2'⟩ <;> omega

theorem not_better_trans {a b c : CredentialSlot}
    (hab : ¬ Better a b) (hbc : ¬ Better b c) : ¬ Better a c := by
  unfold Better at *
  push_neg at *
  constructor
  · omega
  · intro h
    have h1 := hab.1
    have h2 := hbc.1
    rcases Nat.lt_or_ge b.usageCount a.usageCount with hb | hb
    · omega
    · have hba : b.usageCount = a.usageCount := by omega
      have hcb : c.usageCount = b.usageCount := by omega
      have := hab.2 hba.symm
      have := hbc.2 hcb.symm
      omega

theorem selectFrom_eq_none {l : List CredentialSlot} :
    selectFrom l = none ↔ l = [] := by
  cases l with
  | nil => simp [selectFrom]
  | cons a rest =>
    simp only [selectFrom]
    cases selectFrom rest with
    | none => simp
    | some t =>
      by_cases h : betterSlot t a = true <;> simp [h]

theorem selectFrom_mem {l : List CredentialSlot} {s : CredentialSlot}
    (h : selectFrom l = some s) : s ∈ l := by
  induction l with
  | nil => simp [selectFrom] at h
  | cons a rest ih =>
    simp only [selectFrom] at h
    cases hr : selectFrom rest with
    | none =>
      rw [hr] at h
      simp at h
      simp [h]
    | some t =>
      rw [hr] at h
      by_cases hb : betterSlot t a = true
      · simp [hb] at h
        subst h
        exact List.mem_cons_of_mem _ (ih hr)
      · simp [hb] at h
        simp [h]

theorem selectFrom_min {l : List CredentialSlot} :
    ∀ {s : CredentialSlot}, selectFrom l = some s → ∀ t ∈ l, ¬ Better t s := by
  induction l with
  | nil => intro s h; simp [selectFrom] at h
  | cons a rest ih =>
    intro s h
    simp only [selectFrom] at h
    cases hr : selectFrom rest with
    | none =>
      rw [hr] at h
      simp at h
      have hrest : rest = [] := selectFrom_eq_none.mp hr
      subst hrest
      intro t ht
      simp at ht
      subst ht
      rw [← h]
      exact better_irrefl t
    | some t =>
      rw [hr] at h
      by_cases hb : betterSlot t a = true
      · simp [hb] at h
        subst h
        intro u hu
        rcases List.mem_cons.mp hu with hu | hu
        · rw [hu]
          exact fun hc => (better_asymm ((betterSlot_iff t a).mp hb)) hc
        · exact ih hr u hu
      · simp [hb] at h
        subst h
        intro u hu
        rcases List.mem_cons.mp hu with hu | hu
        · subst hu
          exact better_irrefl u
        · have h1 : ¬ Better u t := ih hr u hu
          have h2 : ¬ Better t a := fun hc => hb ((betterSlot_iff t a).mpr hc)
          exact not_better_trans h1 h2

theorem selectFrom_first {l : List CredentialSlot} :
    ∀ {s : CredentialSlot}, selectFrom l = some s →
    ∃ i, ∃ hi : i < l.length, l.get ⟨i, hi⟩ = s ∧
      ∀ j, ∀ hj : j < i, Better s (l.get ⟨j, Nat.lt_trans hj hi⟩) := by
  induction l with
  | nil => intro s h; simp [selectFrom] at h
  | cons a rest ih =>
    intro s h
    simp only [selectFrom] at h
    cases hr : selectFrom rest with
    | none =>
      rw [hr] at h
      simp at h
      refine ⟨0, by simp, by simpa using h, fun j hj => absurd hj (Nat.not_lt_zero j)⟩
    | some t =>
      rw [hr] at h
      by_cases hb : betterSlot t a = true
      · simp [hb] at h
        subst h
        obtain ⟨i, hi, hget, hprev⟩ := ih hr
        refine ⟨i + 1, by simpa using Nat.succ_lt_succ hi, by simpa using hget, ?_⟩
        intro j hj
        cases j with
        | zero =>
          simpa using (betterSlot_iff t a).mp hb
        | succ j' =>
          have hj' : j' < i := Nat.lt_of_succ_lt_succ hj
          simpa using hprev j' hj'
      · simp [hb] at h
        refine ⟨0, by simp, by simpa using h, fun j hj => absurd hj (Nat.not_lt_zero j)⟩

theorem selectFrom_isSome {l : List CredentialSlot} (h : l ≠ []) :
    ∃ s, selectFrom l = some s := by
  cases hr : selectFrom l with
  | none => exact absurd (selectFrom_eq_none.mp hr) h
  | some s => exact ⟨s, rfl⟩

/-- Claim C1: for every ledger state with at least one slot whose
`disabledUntil` is absent or in the past, `selectCredential` returns an
eligible slot of the pool such that no eligible slot is strictly better
(smaller `usageCount`, ties by earlier `lastUsedAt`), and among the eligible
slots it occupies the earliest pool position among those it does not strictly
beat, so selection is a deterministic function of the ledger state. -/
theorem selectCredential_deterministic_min (L : Ledger) (now : Nat)
    (h : ∃ s ∈ L.slots, eligible now s = true) :
    ∃ s, (selectCredential L now).1 = Except.ok s ∧
      s ∈ L.slots ∧ eligible now s = true ∧
      (∀ t ∈ L.slots, eligible now t = true → ¬ Better t s) ∧
      (∃ i, ∃ hi : i < (L.slots.filter (eligible now)).length,
        (L.slots.filter (eligible now)).get ⟨i, hi⟩ = s ∧
        ∀ j, ∀ hj : j < i,
          Better s ((L.slots.filter (eligible now)).get
            ⟨j, Nat.lt_trans hj hi⟩)) := by
  obtain ⟨w, hw, hwel⟩ := h
  have hne : L.slots.filter (eligible now) ≠ [] := by
    intro hc
    have : w ∈ L.slots.filter (eligible now) := List.mem_filter.mpr ⟨hw, hwel⟩
    rw [hc] at this
    simp at this
  obtain ⟨s, hs⟩ := selectFrom_isSome hne
  have hmem : s ∈ L.slots.filter (eligible now) := selectFrom_mem hs
  have hmem' := List.mem_filter.mp hmem
  refine ⟨s, ?_, hmem'.1, hmem'.2, ?_, ?_⟩
  · simp [selectCredential, hs]
  · intro t ht htel
    exact selectFrom_min hs t (List.mem_filter.mpr ⟨ht, htel⟩)
  · exact selectFrom_first hs

/-- Witness for claim C1 on a concrete two-slot pool. -/
theorem selectCredential_deterministic_min_witness :
    ∃ s, (selectCredential
        ⟨[⟨"A", 3, 0, none⟩, ⟨"B", 1, 0, none⟩]⟩ 5).1 = Except.ok s ∧
      s ∈ (⟨[⟨"A", 3, 0, none⟩, ⟨"B", 1, 0, none⟩]⟩ : Ledger).slots ∧
      eligible 5 s = true ∧
      (∀ t ∈ (⟨[⟨"A", 3, 0, none⟩, ⟨"B", 1, 0, none⟩]⟩ : Ledger).slots,
        eligible 5 t = true → ¬ Better t s) ∧
      (∃ i, ∃ hi : i < ((⟨[⟨"A", 3, 0, none⟩, ⟨"B", 1, 0, none⟩]⟩ :
          Ledger).slots.filter (eligible 5)).length,
        ((⟨[⟨"A", 3, 0, none⟩, ⟨"B", 1, 0, none⟩]⟩ :
          Ledger).slots.filter (eligible 5)).get ⟨i, hi⟩ = s ∧
        ∀ j, ∀ hj : j < i,
          Better s (((⟨[⟨"A", 3, 0, none⟩, ⟨"B", 1, 0, none⟩]⟩ :
            Ledger).slots.filter (eligible 5)).get
            ⟨j, Nat.lt_trans hj hi⟩)) :=
  selectCredential_deterministic_min
    ⟨[⟨"A", 3, 0, none⟩, ⟨"B", 1, 0, none⟩]⟩ 5
    ⟨⟨"A", 3, 0, none⟩, by simp, by simp [eligible]⟩

theorem selectCredential_ok_spec {L : Ledger} {now : Nat} {u : CredentialSlot}
    (h : (selectCredential L now).1 = Except.ok u) :
    u ∈ L.slots ∧ eligible now u = true ∧
      ∀ v ∈ L.slots, eligible now v = true → ¬ Better v u := by
  unfold selectCredential at h
  cases hs : selectFrom (L.slots.filter (eligible now)) with
  | none => rw [hs] at h; simp at h
  | some w =>
    rw [hs] at h
    simp at h
    subst h
    have hmem := List.mem_filter.mp (selectFrom_mem hs)
    refine ⟨hmem.1, hmem.2, ?_⟩
    intro v hv hvel
    exact selectFrom_min hs v (List.mem_filter.mpr ⟨hv, hvel⟩)

/-- Claim C2: for every ledger state, slot id `s` and time, `recordDispatch`
keeps the pool length, increments the `usageCount` of the slot whose id is `s`
by exactly one and sets its `lastUsedAt` to the current time, leaves every
slot with a different id entirely unchanged, and the per-slot counters
observed through `snapshot` change accordingly (only the counter of `s`
moves, by exactly one). -/
theorem recordDispatch_frame (L : Ledger) (s : String) (now : Nat) :
    (recordDispatch L s now).slots.length = L.slots.length ∧
    ∀ (i : Nat) (old : CredentialSlot), L.slots[i]? = some old →
      (old.id = s →
        (recordDispatch L s now).slots[i]? =
          some { old with usageCount := old.usageCount + 1, lastUsedAt := now } ∧
        (snapshot (recordDispatch L s now)).1.perSlotUsage[i]? =
          some ⟨old.id, old.usageCount + 1⟩) ∧
      (old.id ≠ s →
        (recordDispatch L s now).slots[i]? = some old ∧
        (snapshot (recordDispatch L s now)).1.perSlotUsage[i]? =
          some ⟨old.id, old.usageCount⟩) := by
  refine ⟨by simp [recordDispatch], ?_⟩
  intro i old hold
  constructor
  · intro hid
    constructor
    · simp [recordDispatch, hold, hid]
    · simp [recordDispatch, snapshot, hold, hid]
  · intro hid
    constructor
    · simp [recordDispatch, hold, hid]
    · simp [recordDispatch, snapshot, hold, hid]

/-- Witness for claim C2: incrementing slot B in a concrete two-slot pool. -/
theorem recordDispatch_frame_witness :
    (recordDispatch ⟨[⟨"A", 4, 7, none⟩, ⟨"B", 2, 3, none⟩]⟩ "B" 9).slots[1]? =
      some ⟨"B", 3, 9, none⟩ ∧
    (recordDispatch ⟨[⟨"A", 4, 7, none⟩, ⟨"B", 2, 3, none⟩]⟩ "B" 9).slots[0]? =
      some ⟨"A", 4, 7, none⟩ :=
  ⟨((recordDispatch_frame ⟨[⟨"A", 4, 7, none⟩, ⟨"B", 2, 3, none⟩]⟩ "B" 9).2
      1 ⟨"B", 2, 3, none⟩ rfl).1 rfl |>.1,
   ((recordDispatch_frame ⟨[⟨"A", 4, 7, none⟩, ⟨"B", 2, 3, none⟩]⟩ "B" 9).2
      0 ⟨"A", 4, 7, none⟩ rfl).2 (by decide) |>.1⟩

/-- Claim C3: whenever every slot is disabled until a future time,
`selectCredential` fails with `NoAvailableCredential`; moreover on every
ledger and at every time, `selectCredential` leaves the ledger state, and
hence the snapshot, unchanged. -/
theorem selectCredential_all_disabled (L : Ledger) (now : Nat)
    (h : ∀ s ∈ L.slots, eligible now s = false) :
    (selectCredential L now).1 =
      Except.error RotationError.noAvailableCredential ∧
    ∀ M : Ledger, ∀ t : Nat, (selectCredential M t).2 = M ∧
      (snapshot (selectCredential M t).2).1 = (snapshot M).1 := by
  constructor
  · have hnil : L.slots.filter (eligible now) = [] := by
      rw [List.filter_eq_nil_iff]
      intro a ha
      simp [h a ha]
    simp [selectCredential, hnil, selectFrom]
  · intro M t
    have h2 : (selectCredential M t).2 = M := by
      unfold selectCredential
      cases selectFrom (M.slots.filter (eligible t)) <;> rfl
    exact ⟨h2, by rw [h2]⟩

/-- Witness for claim C3 on a one-slot pool disabled until time 10, queried
at time 5. -/
theorem selectCredential_all_disabled_witness :
    (selectCredential ⟨[⟨"A", 0, 0, some 10⟩]⟩ 5).1 =
      Except.error RotationError.noAvailableCredential ∧
    (selectCredential ⟨[⟨"A", 0, 0, some 10⟩]⟩ 5).2 =
      (⟨[⟨"A", 0, 0, some 10⟩]⟩ : Ledger) :=
  ⟨(selectCredential_all_disabled ⟨[⟨"A", 0, 0, some 10⟩]⟩ 5
      (by intro s hs; simp at hs; subst hs; rfl)).1,
   ((selectCredential_all_disabled ⟨[⟨"A", 0, 0, some 10⟩]⟩ 5
      (by intro s hs; simp at hs; subst hs; rfl)).2
      ⟨[⟨"A", 0, 0, some 10⟩]⟩ 5).1⟩

theorem quota_error_disables {L : Ledger} {s : String} {cooldown now : Nat} :
    ∀ u ∈ (recordProviderQuotaError L s cooldown now).slots,
      u.id = s → u.disabledUntil = some (now + cooldown) := by
  intro u hu hid
  simp only [recordProviderQuotaError, List.mem_map] at hu
  obtain ⟨x, _, hx⟩ := hu
  by_cases hxs : x.id = s
  · simp [hxs] at hx
    rw [← hx]
  · simp [hxs] at hx
    rw [← hx] at hid
    exact absurd hid hxs

/-- Claim C4: after `recordProviderQuotaError s cooldown` at time `now`, no
`selectCredential` call returns a slot with id `s` while the current time is
at most `now + cooldown`; once the current time exceeds `now + cooldown`, the
slots with id `s` are eligible again (expiry checked lazily at selection
time) and the call returns a slot that is minimal among all eligible slots
under the usual `usageCount`/`lastUsedAt` preference. -/
theorem quota_error_cooldown (L : Ledger) (s : String) (cooldown now t : Nat) :
    (t ≤ now + cooldown → ∀ u : CredentialSlot,
      (selectCredential (recordProviderQuotaError L s cooldown now) t).1 =
        Except.ok u → u.id ≠ s) ∧
    (now + cooldown < t →
      ∀ u ∈ (recordProviderQuotaError L s cooldown now).slots,
        u.id = s → eligible t u = true) ∧
    (now + cooldown < t → ∀ u : CredentialSlot,
      (selectCredential (recordProviderQuotaError L s cooldown now) t).1 =
        Except.ok u →
      u ∈ (recordProviderQuotaError L s cooldown now).slots ∧
        eligible t u = true ∧
        ∀ v ∈ (recordProviderQuotaError L s cooldown now).slots,
          eligible t v = true → ¬ Better v u) := by
  refine ⟨?_, ?_, ?_⟩
  · intro ht u hu hid
    obtain ⟨hmem, hel, _⟩ := selectCredential_ok_spec hu
    have hdis := quota_error_disables u hmem hid
    rw [eligible, hdis] at hel
    simp at hel
    omega
  · intro ht u hmem hid
    have hdis := quota_error_disables u hmem hid
    rw [eligible, hdis]
    simpa using ht
  · intro _ u hu
    exact selectCredential_ok_spec hu

/-- Witness for claim C4: quota error on slot A with cooldown 10 at time 0;
at time 5 the selected slot is B (not A), and at time 11 the disabled slot is
eligible again. -/
theorem quota_error_cooldown_witness :
    (⟨"B", 0, 0, none⟩ : CredentialSlot).id ≠ "A" ∧
    eligible 11 ⟨"A", 0, 0, some 10⟩ = true :=
  ⟨(quota_error_cooldown ⟨[⟨"A", 0, 0, none⟩, ⟨"B", 0, 0, none⟩]⟩
      "A" 10 0 5).1 (by decide) ⟨"B", 0, 0, none⟩ rfl,
   (quota_error_cooldown ⟨[⟨"A", 0, 0, none⟩, ⟨"B", 0, 0, none⟩]⟩
      "A" 10 0 11).2.1 (by decide) ⟨"A", 0, 0, some 10⟩ (by decide) rfl⟩

/-- Claim C5: `snapshot` reports `totalDispatches` equal to the sum of
`usageCount` over all slots of the pool (equivalently, the sum of the
reported per-slot counts), reports the raw per-slot counts slot by slot, and
does not mutate the ledger state. -/
theorem snapshot_spec (L : Ledger) :
    (snapshot L).1.totalDispatches =
      (L.slots.map CredentialSlot.usageCount).sum ∧
    (snapshot L).1.totalDispatches =
      ((snapshot L).1.perSlotUsage.map SlotUsage.usageCount).sum ∧
    (snapshot L).1.perSlotUsage.length = L.slots.length ∧
    (∀ (i : Nat) (old : CredentialSlot), L.slots[i]? = some old →
      (snapshot L).1.perSlotUsage[i]? = some ⟨old.id, old.usageCount⟩) ∧
    (snapshot L).2 = L := by
  refine ⟨rfl, ?_, by simp [snapshot], ?_, rfl⟩
  · simp only [snapshot, List.map_map]
    rfl
  · intro i old hold
    simp [snapshot, hold]

/-- Witness for claim C5 on a concrete two-slot pool. -/
theorem snapshot_spec_witness :
    (snapshot ⟨[⟨"A", 2, 0, none⟩, ⟨"B", 5, 1, some 3⟩]⟩).1.totalDispatches =
      ((⟨[⟨"A", 2, 0, none⟩, ⟨"B", 5, 1, some 3⟩]⟩ :
        Ledger).slots.map CredentialSlot.usageCount).sum ∧
    (snapshot ⟨[⟨"A", 2, 0, none⟩, ⟨"B", 5, 1, some 3⟩]⟩).1.perSlotUsage[0]? =
      some ⟨"A", 2⟩ :=
  ⟨(snapshot_spec ⟨[⟨"A", 2, 0, none⟩, ⟨"B", 5, 1, some 3⟩]⟩).1,
   (snapshot_spec ⟨[⟨"A", 2, 0, none⟩, ⟨"B", 5, 1, some 3⟩]⟩).2.2.2.1
      0 ⟨"A", 2, 0, none⟩ rfl⟩

/-- One ledger operation, for stating invariants over arbitrary sequences of
operations of the ledger interface. -/
inductive Op where
  | select (now : Nat)
  | record (slotId : String) (now : Nat)
  | quota (slotId : String) (cooldown now : Nat)
  | snap
deriving Repr, DecidableEq

/-- Apply one operation to the ledger, keeping only the resulting state. -/
def applyOp (L : Ledger) : Op → Ledger
  | Op.select now => (selectCredential L now).2
  | Op.record slotId now => recordDispatch L slotId now
  | Op.quota slotId cooldown now => recordProviderQuotaError L slotId cooldown now
  | Op.snap => (snapshot L).2

/-- Apply a sequence of operations in order. -/
def applyOps (L : Ledger) (ops : List Op) : Ledger :=
  ops.foldl applyOp L

theorem selectCredential_state (L : Ledger) (now : Nat) :
    (selectCredential L now).2 = L := by
  unfold selectCredential
  cases selectFrom (L.slots.filter (eligible now)) <;> rfl

theorem applyOp_ids (L : Ledger) (op : Op) :
    (applyOp L op).slots.map CredentialSlot.id =
      L.slots.map CredentialSlot.id := by
  cases op with
  | select now => rw [applyOp, selectCredential_state]
  | record slotId now =>
    simp only [applyOp, recordDispatch, List.map_map]
    refine List.map_congr_left ?_
    intro a _
    by_cases h : a.id = slotId <;> simp [h]
  | quota slotId cooldown now =>
    simp only [applyOp, recordProviderQuotaError, List.map_map]
    refine List.map_congr_left ?_
    intro a _
    by_cases h : a.id = slotId <;> simp [h]
  | snap => rfl

theorem applyOp_usage_mono (L : Ledger) (op : Op) (i : Nat)
    (old new : CredentialSlot) (h1 : L.slots[i]? = some old)
    (h2 : (applyOp L op).slots[i]? = some new) :
    old.usageCount ≤ new.usageCount := by
  cases op with
  | select now =>
    rw [applyOp, selectCredential_state, h1] at h2
    simp at h2
    rw [h2]
  | record slotId now =>
    simp only [applyOp, recordDispatch, List.getElem?_map, h1,
      Option.map_some] at h2
    simp at h2
    by_cases h : old.id = slotId
    · rw [if_pos h] at h2
      rw [← h2]
      exact Nat.le_succ _
    · rw [if_neg h] at h2
      rw [← h2]
  | quota slotId cooldown now =>
    simp only [applyOp, recordProviderQuotaError, List.getElem?_map, h1,
      Option.map_some] at h2
    simp at h2
    by_cases h : old.id = slotId
    · rw [if_pos h] at h2
      rw [← h2]
    · rw [if_neg h] at h2
      rw [← h2]
  | snap =>
    rw [applyOp] at h2
    simp only [snapshot] at h2
    rw [h1] at h2
    simp at h2
    rw [h2]

theorem applyOps_ids (L : Ledger) (ops : List Op) :
    (applyOps L ops).slots.map CredentialSlot.id =
      L.slots.map CredentialSlot.id := by
  induction ops generalizing L with
  | nil => rfl
  | cons op rest ih =>
    show (applyOps (applyOp L op) rest).slots.map CredentialSlot.id = _
    rw [ih, applyOp_ids]

theorem applyOp_length (L : Ledger) (op : Op) :
    (applyOp L op).slots.length = L.slots.length := by
  have h := congrArg List.length (applyOp_ids L op)
  simpa using h

theorem applyOps_usage_mono (L : Ledger) (ops : List Op) :
    ∀ (i : Nat) (old new : CredentialSlot), L.slots[i]? = some old →
      (applyOps L ops).slots[i]? = some new →
      old.usageCount ≤ new.usageCount := by
  induction ops generalizing L with
  | nil =>
    intro i old new h1 h2
    rw [applyOps] at h2
    simp only [List.foldl_nil] at h2
    rw [h1] at h2
    simp at h2
    rw [h2]
  | cons op rest ih =>
    intro i old new h1 h2
    cases hmid : (applyOp L op).slots[i]? with
    | none =>
      rw [List.getElem?_eq_none_iff, applyOp_length] at hmid
      rw [List.getElem?_eq_none hmid] at h1
      exact Option.noConfusion h1
    | some mid =>
      have hstep := applyOp_usage_mono L op i old mid h1 hmid
      have hrest : (applyOps (applyOp L op) rest).slots[i]? = some new := h2
      exact Nat.le_trans hstep (ih (applyOp L op) i mid new hmid hrest)

/-- Claim C6: every sequence of ledger operations (selection, dispatch
recording, quota errors, snapshots) keeps the pool ids fixed in order, keeps
the pool non-empty when it started non-empty, and never decreases any slot
usage counter. -/
theorem ledger_invariants (L : Ledger) (ops : List Op) :
    (applyOps L ops).slots.map CredentialSlot.id =
      L.slots.map CredentialSlot.id ∧
    (L.slots ≠ [] → (applyOps L ops).slots ≠ []) ∧
    ∀ (i : Nat) (old new : CredentialSlot), L.slots[i]? = some old →
      (applyOps L ops).slots[i]? = some new →
      old.usageCount ≤ new.usageCount := by
  refine ⟨applyOps_ids L ops, ?_, applyOps_usage_mono L ops⟩
  intro hne hc
  have h := applyOps_ids L ops
  rw [hc] at h
  simp at h
  exact hne h

/-- Witness for claim C6: a concrete sequence of all four operations on a
one-slot pool. -/
theorem ledger_invariants_witness :
    (applyOps ⟨[⟨"A", 0, 0, none⟩]⟩
      [Op.select 1, Op.record "A" 1, Op.quota "A" 5 2, Op.snap]).slots.map
        CredentialSlot.id =
      (⟨[⟨"A", 0, 0, none⟩]⟩ : Ledger).slots.map CredentialSlot.id ∧
    (applyOps ⟨[⟨"A", 0, 0, none⟩]⟩
      [Op.select 1, Op.record "A" 1, Op.quota "A" 5 2, Op.snap]).slots ≠ [] ∧
    (0 : Nat) ≤ 1 :=
  ⟨(ledger_invariants ⟨[⟨"A", 0, 0, none⟩]⟩
      [Op.select 1, Op.record "A" 1, Op.quota "A" 5 2, Op.snap]).1,
   (ledger_invariants ⟨[⟨"A", 0, 0, none⟩]⟩
      [Op.select 1, Op.record "A" 1, Op.quota "A" 5 2, Op.snap]).2.1
      (by decide),
   (ledger_invariants ⟨[⟨"A", 0, 0, none⟩]⟩
      [Op.select 1, Op.record "A" 1, Op.quota "A" 5 2, Op.snap]).2.2
      0 ⟨"A", 0, 0, none⟩ ⟨"A", 1, 1, some 7⟩ rfl rfl⟩

/-- One select-then-record sequence: the spec requires a mutual-exclusion
lock around the whole bookkeeping sequence, so each concurrent caller
performs this step atomically and an execution of N concurrent callers is a
sequence of N such rounds. When selection fails the ledger is untouched. -/
def rotationRound (L : Ledger) (now : Nat) : Ledger :=
  match (selectCredential L now).1 with
  | Except.ok s => recordDispatch L s.id now
  | Except.error _ => L

/-- Run one rotationRound per entry of `times`, in order. -/
def runRounds (L : Ledger) (times : List Nat) : Ledger :=
  times.foldl rotationRound L

theorem mem_decomp_nodup {l : List CredentialSlot} {s : CredentialSlot}
    (hmem : s ∈ l) (hnd : (l.map CredentialSlot.id).Nodup) :
    ∃ pre post, l = pre ++ s :: post ∧
      (∀ x ∈ pre, x.id ≠ s.id) ∧ (∀ x ∈ post, x.id ≠ s.id) := by
  obtain ⟨pre, post, rfl⟩ := List.append_of_mem hmem
  rw [List.map_append, List.map_cons, List.nodup_append] at hnd
  obtain ⟨_, hnd2, hdisj⟩ := hnd
  refine ⟨pre, post, rfl, ?_, ?_⟩
  · intro x hx hxe
    exact hdisj (List.mem_map_of_mem CredentialSlot.id hx)
      (by rw [hxe]; exact List.mem_cons_self _ _)
  · intro x hx hxe
    rw [List.nodup_cons] at hnd2
    exact hnd2.1 (by rw [← hxe]; exact List.mem_map_of_mem CredentialSlot.id hx)

theorem recordDispatch_decomp {pre post : List CredentialSlot}
    {s : CredentialSlot} (now : Nat)
    (hpre : ∀ x ∈ pre, x.id ≠ s.id) (hpost : ∀ x ∈ post, x.id ≠ s.id) :
    recordDispatch ⟨pre ++ s :: post⟩ s.id now =
      ⟨pre ++ ({ s with usageCount := s.usageCount + 1, lastUsedAt := now }) :: post⟩ := by
  unfold recordDispatch
  congr 1
  rw [List.map_append, List.map_cons]
  have h1 : pre.map (fun x => if x.id == s.id then
      { x with usageCount := x.usageCount + 1, lastUsedAt := now }
      else x) = pre.map id := by
    refine List.map_congr_left ?_
    intro x hx
    simp [hpre x hx]
  have h2 : post.map (fun x => if x.id == s.id then
      { x with usageCount := x.usageCount + 1, lastUsedAt := now }
      else x) = post.map id := by
    refine List.map_congr_left ?_
    intro x hx
    simp [hpost x hx]
  rw [h1, h2, List.map_id, List.map_id]
  simp

theorem rotationRound_eq_record {L : Ledger} (now : Nat)
    (hdis : ∀ s ∈ L.slots, s.disabledUntil = none) (hne : L.slots ≠ []) :
    ∃ s, selectFrom L.slots = some s ∧
      rotationRound L now = recordDispatch L s.id now := by
  have hfilter : L.slots.filter (eligible now) = L.slots := by
    rw [List.filter_eq_self]
    intro a ha
    simp [eligible, hdis a ha]
  obtain ⟨s, hs⟩ := selectFrom_isSome hne
  refine ⟨s, hs, ?_⟩
  unfold rotationRound selectCredential
  rw [hfilter, hs]

theorem rotationRound_step {L : Ledger} {n : Nat} (now : Nat)
    (hnd : (L.slots.map CredentialSlot.id).Nodup)
    (hdis : ∀ s ∈ L.slots, s.disabledUntil = none)
    (hsum : (L.slots.map CredentialSlot.usageCount).sum = n)
    (hbal : ∀ a ∈ L.slots, ∀ b ∈ L.slots, a.usageCount ≤ b.usageCount + 1)
    (hne : L.slots ≠ []) :
    ((rotationRound L now).slots.map CredentialSlot.id).Nodup ∧
    (∀ s ∈ (rotationRound L now).slots, s.disabledUntil = none) ∧
    ((rotationRound L now).slots.map CredentialSlot.usageCount).sum = n + 1 ∧
    (∀ a ∈ (rotationRound L now).slots, ∀ b ∈ (rotationRound L now).slots,
      a.usageCount ≤ b.usageCount + 1) ∧
    (rotationRound L now).slots.length = L.slots.length := by
  obtain ⟨s, hsel, hround⟩ := rotationRound_eq_record now hdis hne
  have hmem : s ∈ L.slots := selectFrom_mem hsel
  have hmin : ∀ t ∈ L.slots, s.usageCount ≤ t.usageCount := by
    intro t ht
    have hnb := selectFrom_min hsel t ht
    unfold Better at hnb
    push_neg at hnb
    exact hnb.1
  obtain ⟨pre, post, hsl, hpre, hpost⟩ := mem_decomp_nodup hmem hnd
  have hL : L = ⟨pre ++ s :: post⟩ := by
    cases L with
    | mk slots =>
      simp only at hsl
      rw [hsl]
  have hrd : rotationRound L now =
      ⟨pre ++ ({ s with usageCount := s.usageCount + 1, lastUsedAt := now }) :: post⟩ := by
    rw [hround, hL]
    exact recordDispatch_decomp now hpre hpost
  have hmem' : ∀ x, x ∈ pre ∨ x ∈ post → x ∈ L.slots := by
    intro x hx
    rw [hsl]
    rcases hx with hx | hx
    · exact List.mem_append_left _ hx
    · exact List.mem_append_right _ (List.mem_cons_of_mem _ hx)
  refine ⟨?_, ?_, ?_, ?_, ?_⟩
  · rw [hrd]
    have hids : (pre ++ ({ s with usageCount := s.usageCount + 1, lastUsedAt := now }) :: post).map CredentialSlot.id =
        L.slots.map CredentialSlot.id := by
      rw [hsl]
      simp
    rw [hids]
    exact hnd
  · rw [hrd]
    intro x hx
    rcases List.mem_append.mp hx with hx | hx
    · exact hdis x (hmem' x (Or.inl hx))
    · rcases List.mem_cons.mp hx with hx | hx
      · rw [hx]
        exact hdis s hmem
      · exact hdis x (hmem' x (Or.inr hx))
  · rw [hrd]
    rw [hsl] at hsum
    simp only [List.map_append, List.map_cons, List.sum_append,
      List.sum_cons] at hsum ⊢
    omega
  · rw [hrd]
    intro a ha b hb
    simp only [List.mem_append, List.mem_cons] at ha hb
    have hstat : ∀ x, x ∈ pre ∨ x = ({ s with usageCount := s.usageCount + 1, lastUsedAt := now }) ∨ x ∈ post →
        (x ∈ L.slots ∧ x.usageCount ≤ s.usageCount + 1) ∨
          x.usageCount = s.usageCount + 1 := by
      intro x hx
      rcases hx with hx | hx | hx
      · exact Or.inl ⟨hmem' x (Or.inl hx), hbal x (hmem' x (Or.inl hx)) s hmem⟩
      · right
        rw [hx]
      · exact Or.inl ⟨hmem' x (Or.inr hx), hbal x (hmem' x (Or.inr hx)) s hmem⟩
    rcases hstat a ha with ⟨hamem, habound⟩ | haeq <;>
      rcases hstat b hb with ⟨hbmem, hbbound⟩ | hbeq
    · exact hbal a hamem b hbmem
    · omega
    · have := hmin b hbmem
      omega
    · omega
  · rw [hrd, hsl]
    simp

theorem runRounds_props (times : List Nat) :
    ∀ (L : Ledger) (n : Nat),
    (L.slots.map CredentialSlot.id).Nodup →
    (∀ s ∈ L.slots, s.disabledUntil = none) →
    ((L.slots.map CredentialSlot.usageCount).sum = n) →
    (∀ a ∈ L.slots, ∀ b ∈ L.slots, a.usageCount ≤ b.usageCount + 1) →
    L.slots ≠ [] →
    ((runRounds L times).slots.map CredentialSlot.usageCount).sum =
      n + times.length ∧
    (∀ a ∈ (runRounds L times).slots, ∀ b ∈ (runRounds L times).slots,
      a.usageCount ≤ b.usageCount + 1) ∧
    (runRounds L times).slots.length = L.slots.length := by
  induction times with
  | nil =>
    intro L n _ _ hsum hbal _
    exact ⟨by simpa using hsum, hbal, rfl⟩
  | cons t rest ih =>
    intro L n hnd hdis hsum hbal hne
    obtain ⟨hnd', hdis', hsum', hbal', hlen'⟩ :=
      rotationRound_step t hnd hdis hsum hbal hne
    have hne' : (rotationRound L t).slots ≠ [] := by
      intro hc
      rw [hc] at hlen'
      exact hne (List.length_eq_zero.mp hlen'.symm)
    have hrec := ih (rotationRound L t) (n + 1) hnd' hdis' hsum' hbal' hne'
    have hrw : runRounds L (t :: rest) = runRounds (rotationRound L t) rest := rfl
    rw [hrw]
    refine ⟨?_, hrec.2.1, ?_⟩
    · rw [hrec.1]
      simp
      omega
    · rw [hrec.2.2, hlen']

theorem mul_length_le_usage_sum (m : Nat) (l : List CredentialSlot)
    (h : ∀ x ∈ l, m ≤ x.usageCount) :
    m * l.length ≤ (l.map CredentialSlot.usageCount).sum := by
  induction l with
  | nil => simp
  | cons x rest ih =>
    simp only [List.map_cons, List.sum_cons, List.length_cons]
    have h1 := h x (List.mem_cons_self x rest)
    have h2 := ih (fun y hy => h y (List.mem_cons_of_mem x hy))
    have : m * (rest.length + 1) = m * rest.length + m := by ring
    omega

theorem balanced_usage_bound {L : Ledger} {n : Nat}
    (hsum : (L.slots.map CredentialSlot.usageCount).sum = n)
    (hbal : ∀ a ∈ L.slots, ∀ b ∈ L.slots, a.usageCount ≤ b.usageCount + 1) :
    ∀ a ∈ L.slots,
      a.usageCount ≤ (n + L.slots.length - 1) / L.slots.length := by
  intro a ha
  have hK : 0 < L.slots.length := List.length_pos.mpr (List.ne_nil_of_mem ha)
  rcases Nat.eq_zero_or_pos a.usageCount with h0 | hpos
  · rw [h0]
    exact Nat.zero_le _
  obtain ⟨c, hc⟩ : ∃ c, a.usageCount = c + 1 := ⟨a.usageCount - 1, by omega⟩
  obtain ⟨pre, post, hsl⟩ := List.append_of_mem ha
  have hlowpre : ∀ x ∈ pre, c ≤ x.usageCount := by
    intro x hx
    have := hbal a ha x (by rw [hsl]; exact List.mem_append_left _ hx)
    omega
  have hlowpost : ∀ x ∈ post, c ≤ x.usageCount := by
    intro x hx
    have := hbal a ha x
      (by rw [hsl]; exact List.mem_append_right _ (List.mem_cons_of_mem _ hx))
    omega
  have hb1 := mul_length_le_usage_sum c pre hlowpre
  have hb2 := mul_length_le_usage_sum c post hlowpost
  have hsum' : (pre.map CredentialSlot.usageCount).sum + a.usageCount +
      (post.map CredentialSlot.usageCount).sum = n := by
    rw [hsl] at hsum
    simp only [List.map_append, List.map_cons, List.sum_append,
      List.sum_cons] at hsum
    omega
  have hKlen : L.slots.length = pre.length + 1 + post.length := by
    rw [hsl]
    simp
    omega
  rw [Nat.le_div_iff_mul_le hK]
  have hexp : a.usageCount * L.slots.length =
      c * pre.length + c * post.length + pre.length + post.length +
        a.usageCount := by
    rw [hc, hKlen]
    ring
  omega

/-- Claim C7: starting from a pool with pairwise-distinct slot ids, all usage
counters zero and no slot disabled, running N lock-serialised
select-then-record rounds (the coordination the spec mandates for N
concurrent callers) yields a final state whose usage counters sum to exactly
N, differ pairwise by at most 1, and are each at most the ceiling of N
divided by the pool size K, that is, (N + K - 1) / K. -/
theorem concurrent_fairness (L : Ledger) (times : List Nat)
    (hnd : (L.slots.map CredentialSlot.id).Nodup)
    (hne : L.slots ≠ [])
    (h0 : ∀ s ∈ L.slots, s.usageCount = 0 ∧ s.disabledUntil = none) :
    ((runRounds L times).slots.map CredentialSlot.usageCount).sum =
      times.length ∧
    (∀ a ∈ (runRounds L times).slots, ∀ b ∈ (runRounds L times).slots,
      a.usageCount ≤ b.usageCount + 1) ∧
    (∀ a ∈ (runRounds L times).slots,
      a.usageCount ≤ (times.length + L.slots.length - 1) / L.slots.length) := by
  have hsum0 : (L.slots.map CredentialSlot.usageCount).sum = 0 := by
    refine List.sum_eq_zero ?_
    intro x hx
    obtain ⟨y, hy, hyx⟩ := List.mem_map.mp hx
    rw [← hyx, (h0 y hy).1]
  have hbal0 : ∀ a ∈ L.slots, ∀ b ∈ L.slots,
      a.usageCount ≤ b.usageCount + 1 := by
    intro a ha b hb
    rw [(h0 a ha).1]
    omega
  obtain ⟨hsum, hbal, hlen⟩ := runRounds_props times L 0 hnd
    (fun s hs => (h0 s hs).2) hsum0 hbal0 hne
  have hsum' : ((runRounds L times).slots.map CredentialSlot.usageCount).sum =
      times.length := by
    rw [hsum]
    omega
  refine ⟨hsum', hbal, ?_⟩
  have := balanced_usage_bound hsum' hbal
  rw [hlen] at this
  exact this

/-- Witness for claim C7: three rounds over a two-slot pool; the counter sum
is 3 and the ceiling bound is 2. -/
theorem concurrent_fairness_witness :
    ((runRounds ⟨[⟨"A", 0, 0, none⟩, ⟨"B", 0, 0, none⟩]⟩
        [1, 2, 3]).slots.map CredentialSlot.usageCount).sum = 3 ∧
    (∀ a ∈ (runRounds ⟨[⟨"A", 0, 0, none⟩, ⟨"B", 0, 0, none⟩]⟩
        [1, 2, 3]).slots, a.usageCount ≤ 2) :=
  ⟨(concurrent_fairness ⟨[⟨"A", 0, 0, none⟩, ⟨"B", 0, 0, none⟩]⟩ [1, 2, 3]
      (by decide) (by decide) (by decide)).1,
   (concurrent_fairness ⟨[⟨"A", 0, 0, none⟩, ⟨"B", 0, 0, none⟩]⟩ [1, 2, 3]
      (by decide) (by decide) (by decide)).2.2⟩

/-- The three-slot pool of the end-to-end scenario: ids A, B, C, all counters
zero, all `lastUsedAt` at the initial epoch value, nothing disabled. -/
def poolABC : Ledger :=
  ⟨[⟨"A", 0, 0, none⟩, ⟨"B", 0, 0, none⟩, ⟨"C", 0, 0, none⟩]⟩

/-- Claim C8: starting from pool [A, B, C] with every `usageCount` 0, every
`lastUsedAt` at its initial value and no slot disabled, four sequential
select-then-record rounds (at times 1, 2, 3, 4) select A, then B, then C,
then A again. -/
theorem scenario_round_robin :
    (selectCredential poolABC 1).1 = Except.ok ⟨"A", 0, 0, none⟩ ∧
    (selectCredential (rotationRound poolABC 1) 2).1 =
      Except.ok ⟨"B", 0, 0, none⟩ ∧
    (selectCredential (rotationRound (rotationRound poolABC 1) 2) 3).1 =
      Except.ok ⟨"C", 0, 0, none⟩ ∧
    (selectCredential
        (rotationRound (rotationRound (rotationRound poolABC 1) 2) 3) 4).1 =
      Except.ok ⟨"A", 1, 1, none⟩ :=
  ⟨rfl, rfl, rfl, rfl⟩

/-- A chat session as the frontend stores it (App.js uses `id` and `title`
plus timestamps; only `id` matters to the handlers verified here). -/
structure Session where
  id : String
  title : String
deriving Repr, DecidableEq

/-- A chat message as rendered by the frontend. -/
structure Message where
  id : String
  content : String
deriving Repr, DecidableEq

/-- The system status payload displayed in the header. -/
structure SystemStatus where
  total_requests : Nat
  total_keys : Nat
deriving Repr, DecidableEq

/-- The React state of the App component that the verified handlers touch
(App.js lines 169-176). -/
structure AppState where
  sessions : List Session
  currentSession : Option Session
  messages : List Message
  inputMessage : String
  isLoading : Bool
  systemStatus : Option SystemStatus
deriving Repr, DecidableEq

/-- Outcome of each backend request a single handler invocation may make:
`none` (or `false`) models the request throwing. -/
structure BackendEnv where
  createSessionResult : Option Session
  postMessageOk : Bool
  loadMessagesResult : Option (List Message)
  loadStatusResult : Option SystemStatus
deriving Repr, DecidableEq

/-- The kind of each HTTP request the handlers issue. -/
inductive ApiKind where
  | createSession
  | postMessage (sessionId : String)
  | getMessages (sessionId : String)
  | getStatus
deriving Repr, DecidableEq

/-- One issued request, together with the content of the input field at the
moment the request was issued. -/
structure ApiCall where
  kind : ApiKind
  inputAtCall : String
deriving Repr, DecidableEq

/-- `loadMessages` (App.js lines 212-220): replace the message list with the
response; its own catch clause resets the list to empty on failure, so the
error never propagates to the caller. -/
def loadMessages (env : BackendEnv) (st : AppState) : AppState :=
  match env.loadMessagesResult with
  | some ms => { st with messages := ms }
  | none => { st with messages := [] }

/-- `loadSystemStatus` (App.js lines 203-210): set the status on success; its
own catch clause swallows failures. -/
def loadSystemStatus (env : BackendEnv) (st : AppState) : AppState :=
  match env.loadStatusResult with
  | some s => { st with systemStatus := some s }
  | none => st

/-- JavaScript `String.prototype.trim`: strip leading and trailing
whitespace, here over the character list so that it evaluates by kernel
reduction. -/
def jsTrim (s : String) : String :=
  ⟨((s.data.dropWhile Char.isWhitespace).reverse.dropWhile
      Char.isWhitespace).reverse⟩

/-- The part of `sendMessage` after a session id is known (App.js lines
274-289): post the message; on success reload messages and status; on a
thrown post restore the input text; the finally clause clears `isLoading`. -/
def sendMessageBody (env : BackendEnv) (st : AppState)
    (sessionId messageText : String) (calls : List ApiCall) :
    AppState × List ApiCall :=
  if env.postMessageOk then
    let st3 := loadMessages env st
    let st4 := loadSystemStatus env st3
    ({ st4 with isLoading := false },
      calls ++ [⟨ApiKind.postMessage sessionId, st.inputMessage⟩,
        ⟨ApiKind.getMessages sessionId, st3.inputMessage⟩,
        ⟨ApiKind.getStatus, st4.inputMessage⟩])
  else
    ({ st with inputMessage := messageText, isLoading := false },
      calls ++ [⟨ApiKind.postMessage sessionId, st.inputMessage⟩])

/-- `sendMessage` (App.js lines 254-290): return immediately when the trimmed
input is empty; otherwise remember the text, clear the input, set the loading
flag, create a session when none is current, post the message, and on any
thrown request restore the original text (the finally clause always clears
`isLoading`). The call list records every issued request with the input-field
content at issue time. -/
def sendMessage (env : BackendEnv) (st : AppState) : AppState × List ApiCall :=
  if jsTrim st.inputMessage = "" then (st, [])
  else
    let messageText := st.inputMessage
    let st1 : AppState := { st with isLoading := true, inputMessage := "" }
    match st1.currentSession with
    | some cs => sendMessageBody env st1 cs.id messageText []
    | none =>
      match env.createSessionResult with
      | none =>
        ({ st1 with inputMessage := messageText, isLoading := false },
          [⟨ApiKind.createSession, st1.inputMessage⟩])
      | some ns =>
        let st2 : AppState :=
          { st1 with currentSession := some ns, sessions := ns :: st1.sessions }
        sendMessageBody env st2 ns.id messageText
          [⟨ApiKind.createSession, st1.inputMessage⟩]

/-- `deleteSession` (App.js lines 241-252): when the HTTP delete succeeds,
drop the session from the list; when the deleted id is the current session's
id, also reset the current session and clear the messages. A thrown delete
changes nothing. -/
def deleteSession (st : AppState) (sessionId : String) (deleteOk : Bool) :
    AppState :=
  if deleteOk then
    let st1 :=
      { st with sessions := st.sessions.filter (fun s => s.id != sessionId) }
    if (match st.currentSession with
        | some cs => cs.id == sessionId
        | none => false) then
      { st1 with currentSession := none, messages := [] }
    else st1
  else st

/-- Claim C9: when the trimmed input is empty, `sendMessage` changes nothing
and issues no request; otherwise the input field is already empty at the
moment each request is issued, the original text is restored exactly when
the session-creation post or the message post throws, and on success the
input field stays cleared. -/
theorem sendMessage_spec (env : BackendEnv) (st : AppState) :
    (jsTrim st.inputMessage = "" → sendMessage env st = (st, [])) ∧
    (jsTrim st.inputMessage ≠ "" →
      (∀ c ∈ (sendMessage env st).2, c.inputAtCall = "") ∧
      ((st.currentSession = none ∧ env.createSessionResult = none) ∨
          env.postMessageOk = false →
        (sendMessage env st).1.inputMessage = st.inputMessage) ∧
      ((st.currentSession = none → env.createSessionResult ≠ none) →
        env.postMessageOk = true →
        (sendMessage env st).1.inputMessage = "")) := by
  by_cases htrim : jsTrim st.inputMessage = ""
  · refine ⟨fun _ => ?_, fun hne => absurd htrim hne⟩
    simp [sendMessage, htrim]
  · refine ⟨fun hc => absurd hc htrim, fun _ => ?_⟩
    refine ⟨?_, fun hfail => ?_, fun hcreate hpost => ?_⟩ <;>
      simp only [sendMessage, if_neg htrim] <;>
      cases hcs : st.currentSession <;>
      cases hcr : env.createSessionResult <;>
      cases hpm : env.postMessageOk <;>
      cases hlm : env.loadMessagesResult <;>
      cases hls : env.loadStatusResult <;>
        simp_all [sendMessageBody, loadMessages, loadSystemStatus]

/-- Witness for claim C9: an empty input changes nothing; a successful send
of the text hello leaves the input cleared. -/
theorem sendMessage_spec_witness :
    sendMessage ⟨none, false, none, none⟩ ⟨[], none, [], "", false, none⟩ =
      (⟨[], none, [], "", false, none⟩, []) ∧
    (sendMessage ⟨some ⟨"sid", "t"⟩, true, some [], some ⟨1, 2⟩⟩
      ⟨[], none, [], "hello", false, none⟩).1.inputMessage = "" :=
  ⟨(sendMessage_spec ⟨none, false, none, none⟩
      ⟨[], none, [], "", false, none⟩).1 rfl,
   ((sendMessage_spec ⟨some ⟨"sid", "t"⟩, true, some [], some ⟨1, 2⟩⟩
      ⟨[], none, [], "hello", false, none⟩).2 (by decide)).2.2
      (fun _ => by decide) rfl⟩

/-- Claim C10: when the HTTP delete succeeds, the session with the given id
is removed from the list (the rest surviving in order); the current session
is reset and the message list cleared exactly when the deleted id is the
current session's id, and both are left unchanged otherwise. -/
theorem deleteSession_spec (st : AppState) (sid : String) :
    List.Sublist (deleteSession st sid true).sessions st.sessions ∧
    (∀ s ∈ (deleteSession st sid true).sessions, s.id ≠ sid) ∧
    (∀ s ∈ st.sessions, s.id ≠ sid →
      s ∈ (deleteSession st sid true).sessions) ∧
    (∀ cs, st.currentSession = some cs → cs.id = sid →
      (deleteSession st sid true).currentSession = none ∧
        (deleteSession st sid true).messages = []) ∧
    ((∀ cs, st.currentSession = some cs → cs.id ≠ sid) →
      (deleteSession st sid true).currentSession = st.currentSession ∧
        (deleteSession st sid true).messages = st.messages) := by
  have hsess : (deleteSession st sid true).sessions =
      st.sessions.filter (fun s => s.id != sid) := by
    unfold deleteSession
    simp only [if_true]
    split <;> rfl
  refine ⟨?_, ?_, ?_, ?_, ?_⟩
  · rw [hsess]
    exact List.filter_sublist _
  · intro s hs
    rw [hsess] at hs
    have := (List.mem_filter.mp hs).2
    simpa using this
  · intro s hs hne
    rw [hsess]
    exact List.mem_filter.mpr ⟨hs, by simpa using hne⟩
  · intro cs hcs hid
    simp [deleteSession, hcs, hid]
  · intro hall
    cases hcs : st.currentSession with
    | none => simp [deleteSession, hcs]
    | some cs =>
      have hne := hall cs hcs
      simp [deleteSession, hcs, hne]

/-- Witness for claim C10: deleting the current session s1 resets the current
session and clears the messages. -/
theorem deleteSession_spec_witness :
    (deleteSession ⟨[⟨"s1", "t"⟩, ⟨"s2", "u"⟩], some ⟨"s1", "t"⟩,
      [⟨"m", "c"⟩], "", false, none⟩ "s1" true).currentSession = none ∧
    (deleteSession ⟨[⟨"s1", "t"⟩, ⟨"s2", "u"⟩], some ⟨"s1", "t"⟩,
      [⟨"m", "c"⟩], "", false, none⟩ "s1" true).messages = [] :=
  (deleteSession_spec ⟨[⟨"s1", "t"⟩, ⟨"s2", "u"⟩], some ⟨"s1", "t"⟩,
      [⟨"m", "c"⟩], "", false, none⟩ "s1").2.2.2.1 ⟨"s1", "t"⟩ rfl rfl
